import Mathlib

/-!
Verification development for the redis cache layer: a shallow embedding of
src/redis_cache/cache_manager.py and src/redis_cache/django_cache_manager.py,
with theorems settling the specification claims.

Modelling conventions:
- Python unicode strings are lists of characters (`Str`).
- Python `None` is `Option.none`; a raised exception is `Except.error ()`.
- Byte strings returned by the store are `List Nat`; the Python truthiness
  test on loaded data holds exactly for a present, non-empty byte string.
- The backing stores are association lists from keys to values; newest
  binding first, lookup takes the first match (matching redis SET and GET).
-/

set_option maxHeartbeats 1000000

/-- Python unicode strings modelled as lists of characters. -/
abbrev Str := List Char

/-- Translation of the Python join method on strings: sep.join(parts) with a
single-character separator, as used by CacheManager.key. -/
def joinSep (c : Char) : List Str → Str
  | [] => []
  | [s] => s
  | s :: s' :: ss => s ++ c :: joinSep c (s' :: ss)

/-- The declared parameter name cls. -/
def clsStr : Str := "cls".data

/-- The declared parameter name self. -/
def selfStr : Str := "self".data

/-- Receiver elision of CacheManager.key: the index idx is 1 when the first
declared parameter of the function is cls or self, else 0 (lines 58-60 of
cache_manager.py). With no declared parameters no receiver is detected. -/
def skipCount (f_args : List Str) : Nat :=
  match f_args with
  | [] => 0
  | a :: _ => if a = clsStr ∨ a = selfStr then 1 else 0

/-- Translation of CacheManager.key (cache_manager.py lines 35-66).
key_base is the instance key base, nameparts the name parts (the function
name, preceded by the class name for methods), f_args the declared parameter
names of the function obtained by introspection, and args the positional call
arguments already coerced to their string forms (the Python code applies the
unicode coercion to each argument). The source appends arguments to the key
only when the call has positional arguments and the function declares at
least one parameter: `if args and len(f_args) > 0`. -/
def key (key_base : Str) (nameparts : List Str) (f_args : List Str) (args : List Str) : Str :=
  let argparts := [key_base, joinSep '.' nameparts] ++
    (if args ≠ [] ∧ 0 < f_args.length then args.drop (skipCount f_args) else [])
  joinSep ':' argparts

/-- Definition following the words of the spec (section 4.1, claim C3): the
built key is the namespace key base, then the joined name parts, then the
string forms of exactly the elements call_args[skip_count:], all joined with
the colon separator, with no side condition on the declared parameter list.
Stated separately from `key` so the spec formula can be compared with the
source function. -/
def keySpec (key_base : Str) (nameparts : List Str) (f_args : List Str) (args : List Str) : Str :=
  joinSep ':' ([key_base, joinSep '.' nameparts] ++ args.drop (skipCount f_args))

theorem joinSep_append (c : Char) (l1 l2 : List Str) (h1 : l1 ≠ []) (h2 : l2 ≠ []) :
    joinSep c (l1 ++ l2) = joinSep c l1 ++ c :: joinSep c l2 := by
  induction l1 with
  | nil => exact absurd rfl h1
  | cons a as ih =>
    cases as with
    | nil =>
      cases l2 with
      | nil => exact absurd rfl h2
      | cons b bs => simp [joinSep]
    | cons a' as' =>
      have hrec := ih (by simp)
      rw [List.cons_append] at hrec
      show joinSep c (a :: (a' :: (as' ++ l2))) = _
      rw [joinSep, hrec, joinSep]
      simp

theorem sep_append_inj (c : Char) :
    ∀ (a b r1 r2 : Str), c ∉ a → c ∉ b → a ++ c :: r1 = b ++ c :: r2 → a = b ∧ r1 = r2 := by
  intro a
  induction a with
  | nil =>
    intro b r1 r2 _ hb h
    cases b with
    | nil => simpa using h
    | cons x bs =>
      simp only [List.nil_append, List.cons_append, List.cons.injEq] at h
      exact absurd (h.1 ▸ List.mem_cons_self x bs) hb
  | cons x as ih =>
    intro b r1 r2 ha hb h
    cases b with
    | nil =>
      simp only [List.cons_append, List.nil_append, List.cons.injEq] at h
      exact absurd (h.1 ▸ List.mem_cons_self x as) (h.1 ▸ ha)
    | cons y bs =>
      simp only [List.cons_append, List.cons.injEq] at h
      obtain ⟨rfl, h2⟩ := h
      have hrec := ih bs r1 r2 (fun hm => ha (List.mem_cons_of_mem _ hm))
        (fun hm => hb (List.mem_cons_of_mem _ hm)) h2
      exact ⟨by rw [hrec.1], hrec.2⟩

theorem joinSep_inj (c : Char) :
    ∀ (as bs : List Str), as.length = bs.length →
      (∀ s ∈ as, c ∉ s) → (∀ s ∈ bs, c ∉ s) →
      joinSep c as = joinSep c bs → as = bs := by
  intro as
  induction as with
  | nil =>
    intro bs hlen _ _ _
    cases bs with
    | nil => rfl
    | cons b bs' => simp at hlen
  | cons a as' ih =>
    intro bs hlen hca hcb hj
    cases bs with
    | nil => simp at hlen
    | cons b bs' =>
      cases as' with
      | nil =>
        cases bs' with
        | nil => simpa [joinSep] using hj
        | cons b' bs'' => simp at hlen
      | cons a' as'' =>
        cases bs' with
        | nil => simp at hlen
        | cons b' bs'' =>
          rw [joinSep, joinSep] at hj
          have hab := sep_append_inj c a b _ _
            (hca a (by simp)) (hcb b (by simp)) hj
          have htl := ih (b' :: bs'') (by simpa using hlen)
            (fun s hs => hca s (List.mem_cons_of_mem _ hs))
            (fun s hs => hcb s (List.mem_cons_of_mem _ hs)) hab.2
          rw [hab.1, htl]

/-- C2: as stated the claim fails on the source. A function that declares no
parameters (in Python, a function taking only starred varargs, whose
introspected parameter list is empty) fails the guard `len(f_args) > 0`, so
all call arguments are omitted from the key: two distinct colon-free argument
sequences of the same length collide. -/
theorem C2_counterexample :
    ([['1']] : List Str) ≠ [['2']] ∧
    (∀ s ∈ ([['1']] : List Str), ':' ∉ s) ∧
    (∀ s ∈ ([['2']] : List Str), ':' ∉ s) ∧
    key ['c'] [['f']] [] [['1']] = key ['c'] [['f']] [] [['2']] := by
  decide

/-- C2 (amended): for a function that declares at least one parameter,
identical inputs yield an identical key (immediate, since `key` is a
function), and two argument sequences of the same length that differ after
dropping the elided receiver argument, all of whose string forms are free of
the colon separator, yield distinct keys. -/
theorem C2_key_injective (key_base : Str) (nameparts f_args : List Str) (hf : f_args ≠ [])
    (as bs : List Str) (hlen : as.length = bs.length)
    (hca : ∀ s ∈ as.drop (skipCount f_args), ':' ∉ s)
    (hcb : ∀ s ∈ bs.drop (skipCount f_args), ':' ∉ s)
    (hne : as.drop (skipCount f_args) ≠ bs.drop (skipCount f_args)) :
    key key_base nameparts f_args as ≠ key key_base nameparts f_args bs := by
  intro heq
  have hdlen : (as.drop (skipCount f_args)).length = (bs.drop (skipCount f_args)).length := by
    simp [List.length_drop, hlen]
  have hdne : as.drop (skipCount f_args) ≠ [] := by
    intro h0
    have : (bs.drop (skipCount f_args)).length = 0 := by rw [← hdlen, h0]; rfl
    exact hne (by rw [h0, List.length_eq_zero.mp this])
  have hbne : bs.drop (skipCount f_args) ≠ [] := by
    intro h0
    have : (as.drop (skipCount f_args)).length = 0 := by rw [hdlen, h0]; rfl
    exact hne (by rw [h0, List.length_eq_zero.mp this])
  have hane : as ≠ [] := by
    intro h0; exact hdne (by rw [h0]; simp)
  have hbsne : bs ≠ [] := by
    intro h0; exact hbne (by rw [h0]; simp)
  have hflen : 0 < f_args.length := by
    cases f_args with
    | nil => exact absurd rfl hf
    | cons x xs => simp
  unfold key at heq
  rw [if_pos ⟨hane, hflen⟩, if_pos ⟨hbsne, hflen⟩] at heq
  rw [joinSep_append ':' [key_base, joinSep '.' nameparts] _ (by simp) hdne,
      joinSep_append ':' [key_base, joinSep '.' nameparts] _ (by simp) hbne] at heq
  have hj : joinSep ':' (as.drop (skipCount f_args)) =
      joinSep ':' (bs.drop (skipCount f_args)) := by
    have := List.append_cancel_left heq
    exact List.tail_eq_of_cons_eq this
  exact hne (joinSep_inj ':' _ _ hdlen hca hcb hj)

theorem C2_key_injective_witness :
    ((["a".data] : List Str) ≠ []) ∧
    ([['1']] : List Str).length = ([['2']] : List Str).length ∧
    (∀ s ∈ ([['1']] : List Str).drop (skipCount ["a".data]), ':' ∉ s) ∧
    (∀ s ∈ ([['2']] : List Str).drop (skipCount ["a".data]), ':' ∉ s) ∧
    ([['1']] : List Str).drop (skipCount ["a".data]) ≠ [['2']].drop (skipCount ["a".data]) ∧
    key ['c'] [['f']] ["a".data] [['1']] ≠ key ['c'] [['f']] ["a".data] [['2']] :=
  ⟨by decide, by decide, by decide, by decide, by decide,
   C2_key_injective ['c'] [['f']] ["a".data] (by decide) [['1']] [['2']]
     (by decide) (by decide) (by decide) (by decide)⟩

/-- C3: as stated the claim fails on the source. For a function whose
introspected declared parameter list is empty, called with a non-empty
argument tuple, the spec formula keeps all the arguments (skip_count is 0)
but the source drops them all because of the guard `len(f_args) > 0`. -/
theorem C3_counterexample :
    key ['c'] [['f']] [] [['5']] ≠ keySpec ['c'] [['f']] [] [['5']] := by
  decide

/-- C3 (amended): for every function that declares at least one parameter and
every non-empty positional argument tuple, the built key equals the namespace
key base, then the joined name parts, then the string forms of exactly the
elements call_args[skip_count:], all joined with the colon separator, where
skip_count is 1 if the declared first parameter is cls or self and 0
otherwise. When the declared parameter list is empty the source omits the
call arguments entirely. -/
theorem C3_key_matches_spec (key_base : Str) (nameparts f_args args : List Str)
    (ha : args ≠ []) (hf : f_args ≠ []) :
    key key_base nameparts f_args args = keySpec key_base nameparts f_args args := by
  have hflen : 0 < f_args.length := by
    cases f_args with
    | nil => exact absurd rfl hf
    | cons x xs => simp
  unfold key keySpec
  rw [if_pos ⟨ha, hflen⟩]

theorem C3_key_matches_spec_witness :
    (([['7']] : List Str) ≠ []) ∧ ((["self".data] : List Str) ≠ []) ∧
    key ['c'] [['f']] ["self".data] [['7']] = keySpec ['c'] [['f']] ["self".data] [['7']] :=
  ⟨by decide, by decide, C3_key_matches_spec ['c'] [['f']] ["self".data] [['7']] (by decide) (by decide)⟩

/-- Generic lookup in an association list keyed by strings, newest binding
first: the model of GET against the backing store. -/
def dlookup {V : Type _} : List (Str × V) → Str → Option V
  | [], _ => none
  | (k, v) :: st, q => if k = q then some v else dlookup st q

theorem dlookup_cons_self {V : Type _} (st : List (Str × V)) (k : Str) (v : V) :
    dlookup ((k, v) :: st) k = some v := by
  simp [dlookup]

theorem dlookup_cons_ne {V : Type _} (st : List (Str × V)) (k q : Str) (v : V)
    (h : k ≠ q) : dlookup ((k, v) :: st) q = dlookup st q := by
  simp [dlookup, h]

/-- Byte strings stored in redis, as handled by cPickle and the GET and SET
commands of the connection. -/
abbrev Bytes := List Nat

/-- State of the redis connection used by the cache decorator: the stored
byte strings, plus the recorded expirations produced by the EXPIRE command. -/
structure BStore where
  entries : List (Str × Bytes)
  ttls : List (Str × Nat)
deriving DecidableEq

def BStore.get (st : BStore) (k : Str) : Option Bytes := dlookup st.entries k

def BStore.set (st : BStore) (k : Str) (v : Bytes) : BStore :=
  { st with entries := (k, v) :: st.entries }

def BStore.expire (st : BStore) (k : Str) (t : Nat) : BStore :=
  { st with ttls := (k, t) :: st.ttls }

/-- Configuration of a CacheManager instance from cache_manager.py: the key
base, the optional TTL, whether a connection is available, and the
serialization hooks. The hooks before_save and after_load delegate to
cPickle, which is outside the sources, so they are kept as parameters. -/
structure CacheCfg (V : Type) where
  key_base : Str
  ttl : Option Nat
  hasConn : Bool
  enc : V → Bytes
  dec : Bytes → V

/-- Python truthiness of the loaded data: present and non-empty. -/
def truthy : Option Bytes → Bool
  | none => false
  | some d => !d.isEmpty

/-- The load step of the wrapper: data stays None unless a connection is
available (cache_manager.py lines 106-108). -/
def loadRes {V : Type} (cfg : CacheCfg V) (st : BStore) (k : Str) : Option Bytes :=
  if cfg.hasConn then st.get k else none

/-- Result of one decorated call: the value returned to the caller, the store
state afterwards, and whether the wrapped function was invoked. -/
structure CallOut (V : Type) where
  result : Option V
  store : BStore
  invoked : Bool
deriving DecidableEq

/-- The store state after the save step of the miss path (cache_manager.py
lines 115-123): under an available connection the encoded result is saved
and, when a truthy TTL is configured, the key is expired right after;
without a connection the store is untouched. -/
def missSave {V : Type} (cfg : CacheCfg V) (st : BStore) (k : Str) (v : V) : BStore :=
  if cfg.hasConn then
    match cfg.ttl with
    | some t => if t = 0 then st.set k (cfg.enc v) else (st.set k (cfg.enc v)).expire k t
    | none => st.set k (cfg.enc v)
  else st

/-- Translation of the wrapper built by CacheManager.cache (cache_manager.py
lines 102-127). fres is the value the wrapped function would return when
invoked (Option.none is the Python None sentinel); since the wrapped function
is only consulted in the miss path, passing it as a value is faithful for a
single call. The hit test is Python truthiness of the loaded data; in the
miss path a None result is returned unchanged with no store interaction,
otherwise the save step runs. -/
def wrapper {V : Type} (cfg : CacheCfg V) (nameparts f_args : List Str)
    (fres : Option V) (args : List Str) (st : BStore) : CallOut V :=
  if truthy (loadRes cfg st (key cfg.key_base nameparts f_args args)) then
    { result := some (cfg.dec ((loadRes cfg st (key cfg.key_base nameparts f_args args)).getD [])),
      store := st, invoked := false }
  else
    match fres with
    | none => { result := none, store := st, invoked := true }
    | some v =>
      { result := some v,
        store := missSave cfg st (key cfg.key_base nameparts f_args args) v,
        invoked := true }

/-- C6: a decorated call that reaches the wrapped function (the load was
falsy) and obtains the None sentinel returns the sentinel unchanged, performs
no save and no expire — the store state is exactly the one it started from —
and a subsequent identical call against the resulting store invokes the
wrapped function again. -/
theorem C6_none_never_cached {V : Type} (cfg : CacheCfg V) (nameparts f_args args : List Str)
    (st : BStore)
    (hload : truthy (loadRes cfg st (key cfg.key_base nameparts f_args args)) = false) :
    wrapper cfg nameparts f_args none args st =
      { result := none, store := st, invoked := true } ∧
    (wrapper cfg nameparts f_args none args
      (wrapper cfg nameparts f_args none args st).store).invoked = true := by
  have h1 : wrapper cfg nameparts f_args none args st =
      { result := none, store := st, invoked := true } := by
    unfold wrapper
    rw [hload]
    simp
  refine ⟨h1, ?_⟩
  rw [h1]
  unfold wrapper
  simp only
  rw [hload]
  simp

theorem C6_none_never_cached_witness :
    truthy (loadRes (⟨['c'], none, true, fun v => [v], fun b => b.headD 0⟩ : CacheCfg Nat)
      ⟨[], []⟩ (key ['c'] [['f']] [['x']] [['1']])) = false ∧
    wrapper (⟨['c'], none, true, fun v => [v], fun b => b.headD 0⟩ : CacheCfg Nat)
      [['f']] [['x']] none [['1']] ⟨[], []⟩ =
      { result := none, store := ⟨[], []⟩, invoked := true } :=
  ⟨by decide,
   (C6_none_never_cached (⟨['c'], none, true, fun v => [v], fun b => b.headD 0⟩ : CacheCfg Nat)
     [['f']] [['x']] [['1']] ⟨[], []⟩ (by decide)).1⟩

/-- C7: as stated the claim fails on the source. A wrapped function returning
the None sentinel is never cached, so the second identical call, against the
unchanged store, invokes the underlying function again (one invocation, not
zero), exactly because of the policy stated in claim C6. -/
theorem C7_counterexample :
    (wrapper (⟨['c'], none, true, fun v => [v + 1], fun b => b.headD 1 - 1⟩ : CacheCfg Nat)
      [['f']] [['x']] none [['1']]
      (wrapper (⟨['c'], none, true, fun v => [v + 1], fun b => b.headD 1 - 1⟩ : CacheCfg Nat)
        [['f']] [['x']] none [['1']] ⟨[], []⟩).store).invoked = true := by
  decide

theorem BStore.get_set_self (st : BStore) (k : Str) (v : Bytes) :
    (st.set k v).get k = some v := by
  simp [BStore.get, BStore.set, dlookup]

theorem missSave_get_self {V : Type} (cfg : CacheCfg V) (st : BStore) (k : Str) (v : V)
    (hc : cfg.hasConn = true) : (missSave cfg st k v).get k = some (cfg.enc v) := by
  unfold missSave
  rw [hc, if_pos rfl]
  cases cfg.ttl with
  | none => exact BStore.get_set_self st k (cfg.enc v)
  | some t =>
    by_cases ht : t = 0
    · simp only [if_pos ht]
      exact BStore.get_set_self st k (cfg.enc v)
    · simp only [if_neg ht]
      simp [BStore.get, BStore.expire, BStore.set, dlookup]

/-- C7 (amended): provided a connection is available, the wrapped function
returns a non-sentinel value, its encoding round-trips and encodes to a
non-empty byte string (all true of cPickle on any value), two successive
identical decorated calls with the store otherwise unchanged yield identical
results and the second call does not invoke the underlying function. -/
theorem C7_second_call_is_hit {V : Type} (cfg : CacheCfg V) (nameparts f_args args : List Str)
    (st : BStore) (v : V)
    (hc : cfg.hasConn = true) (hrt : cfg.dec (cfg.enc v) = v) (hne : cfg.enc v ≠ []) :
    (wrapper cfg nameparts f_args (some v) args
        (wrapper cfg nameparts f_args (some v) args st).store).result =
      (wrapper cfg nameparts f_args (some v) args st).result ∧
    (wrapper cfg nameparts f_args (some v) args
        (wrapper cfg nameparts f_args (some v) args st).store).invoked = false := by
  cases hload : truthy (loadRes cfg st (key cfg.key_base nameparts f_args args)) with
  | true =>
    have h1 : wrapper cfg nameparts f_args (some v) args st =
        { result := some (cfg.dec ((loadRes cfg st (key cfg.key_base nameparts f_args args)).getD [])),
          store := st, invoked := false } := by
      unfold wrapper
      rw [hload]
      simp
    rw [h1]
    unfold wrapper
    simp only
    rw [hload]
    simp
  | false =>
    have h1 : wrapper cfg nameparts f_args (some v) args st =
        { result := some v,
          store := missSave cfg st (key cfg.key_base nameparts f_args args) v,
          invoked := true } := by
      unfold wrapper
      rw [hload]
      simp
    have hload2 : loadRes cfg (missSave cfg st (key cfg.key_base nameparts f_args args) v)
        (key cfg.key_base nameparts f_args args) = some (cfg.enc v) := by
      rw [loadRes, hc, if_pos rfl, missSave_get_self cfg st _ v hc]
    have htr2 : truthy (loadRes cfg (missSave cfg st (key cfg.key_base nameparts f_args args) v)
        (key cfg.key_base nameparts f_args args)) = true := by
      rw [hload2]
      simp [truthy, hne]
    rw [h1]
    unfold wrapper
    simp only
    rw [htr2]
    simp [hload2, hrt]

theorem C7_second_call_is_hit_witness :
    ((⟨['c'], none, true, fun v => [v + 1], fun b => b.headD 1 - 1⟩ : CacheCfg Nat).hasConn = true) ∧
    ((⟨['c'], none, true, fun v => [v + 1], fun b => b.headD 1 - 1⟩ : CacheCfg Nat).dec
      ((⟨['c'], none, true, fun v => [v + 1], fun b => b.headD 1 - 1⟩ : CacheCfg Nat).enc 4) = 4) ∧
    (wrapper (⟨['c'], none, true, fun v => [v + 1], fun b => b.headD 1 - 1⟩ : CacheCfg Nat)
      [['f']] [['x']] (some 4) [['1']]
      (wrapper (⟨['c'], none, true, fun v => [v + 1], fun b => b.headD 1 - 1⟩ : CacheCfg Nat)
        [['f']] [['x']] (some 4) [['1']] ⟨[], []⟩).store).invoked = false :=
  ⟨rfl, by decide,
   (C7_second_call_is_hit (⟨['c'], none, true, fun v => [v + 1], fun b => b.headD 1 - 1⟩ : CacheCfg Nat)
     [['f']] [['x']] [['1']] ⟨[], []⟩ 4 rfl (by decide) (by decide)).2⟩

/-- A call record registered with a namespace manager
(django_cache_manager.py line 31): the tuple
(func, ignore_args, view, namespace, args, kwargs). The function reference is
modelled by an identity number fid together with its re-invocation behavior:
raises tells whether invoking it raises, value is the result it returns
otherwise. args holds the string forms of the positional arguments as key
segments; keyword arguments do not take part in key construction (spec
section 9), so they are not carried. -/
structure CallRec (V : Type) where
  fid : Nat
  raises : Bool
  value : V
  ignore_args : Bool
  view : Bool
  ns : Str
  fname : Str
  args : List Str
deriving DecidableEq

/-- Modelled from the spec: cache_create_key is imported from
cache_utils.decorators, which is not among the sources. Spec section 6 gives
the key wire format, colon-separated namespace, function name, then argument
string forms, and spec section 3 says the ignore-args flag makes the key
builder omit all call arguments, collapsing all calls to one key. -/
def cache_create_key (ns : Str) (ignore_args : Bool) (fname : Str) (args : List Str) : Str :=
  joinSep ':' ([ns, fname] ++ if ignore_args then [] else args)

/-- The key the registry loop of update computes for a record, using the
namespace of the owning manager (django_cache_manager.py line 120). -/
def regKey {V : Type} (nsname : Str) (r : CallRec V) : Str :=
  cache_create_key nsname r.ignore_args r.fname r.args

/-- The key the view walk of update computes for a record, using the
namespace stored in the record itself (django_cache_manager.py line 131). -/
def recKey {V : Type} (r : CallRec V) : Str := regKey r.ns r

/-- The django-side cache store: an association list from keys to cached
values, newest binding first. -/
abbrev DStore (V : Type) := List (Str × V)

/-- Model of cache.set: a fresh binding shadows any older one. -/
def dset {V : Type} (st : DStore V) (k : Str) (v : V) : DStore V := (k, v) :: st

/-- Model of cache.delete for a single key: every binding of that key goes. -/
def dremove {V : Type} (q : Str) : DStore V → DStore V
  | [] => []
  | (k, v) :: st => if k = q then dremove q st else (k, v) :: dremove q st

/-- Whether candidate is a contiguous prefix of l. -/
def isPrefixOfL (candidate : Str) (l : Str) : Bool :=
  match candidate, l with
  | [], _ => true
  | _ :: _, [] => false
  | a :: as, b :: bs => a = b && isPrefixOfL as bs

/-- Whether seg occurs contiguously somewhere inside l. -/
def isInfixOfL (seg : Str) : Str → Bool
  | [] => isPrefixOfL seg []
  | c :: t => isPrefixOfL seg (c :: t) || isInfixOfL seg t

/-- A key matches the glob pattern `*.app.*` used for the application-group
flush (django_cache_manager.py line 53) exactly when the segment
`.app.` occurs inside it, since a glob star matches any, possibly empty,
sequence of characters. -/
def matchesApp (app : Str) (k : Str) : Bool := isInfixOfL ('.' :: (app ++ ['.'])) k

/-- Model of delete_pattern for the application-group pattern: every binding
whose key matches is removed. -/
def flushStore {V : Type} (app : Str) : DStore V → DStore V
  | [] => []
  | (k, v) :: st => if matchesApp app k then flushStore app st else (k, v) :: flushStore app st

/-- Keys of the store matching the application pattern, as returned by the
KEYS command in the raw-client branch of flush_app. -/
def redisKeys {V : Type} (app : Str) : DStore V → List Str
  | [] => []
  | (k, _) :: st => if matchesApp app k then k :: redisKeys app st else redisKeys app st

/-- Modelled from the Redis DEL command as issued by the redis client:
delete(*keys) sends DEL with exactly the given keys, and the command
requires at least one key, so a call with an empty key list raises a
response error instead of returning a count. The client library is outside
the sources. -/
def redisDelete {V : Type} (ks : List Str) (st : DStore V) : Except Unit (Nat × DStore V) :=
  if ks = [] then .error ()
  else .ok (ks.length, st.filter fun p => !(decide (p.1 ∈ ks)))

/-- Translation of CacheUpdateManager.flush_app (django_cache_manager.py
lines 49-58): with a raw redis client the matching keys are listed and
passed to DEL, otherwise delete_pattern removes them directly. The count
returned by delete_pattern is the number of removed bindings. -/
def flush_app {V : Type} (isStrict : Bool) (app : Str) (st : DStore V) :
    Except Unit (Nat × DStore V) :=
  if isStrict then redisDelete (redisKeys app st) st
  else .ok ((st.filter fun p => matchesApp app p.1).length, flushStore app st)

/-- Events observable against the store and the registered functions during
an update run, in order. -/
inductive Ev (V : Type) where
  | invoke (r : CallRec V)
  | setK (k : Str)
  | flushApp (app : Str)
  | delK (k : Str)
deriving DecidableEq

/-- Translation of the first loop of CacheManager.update
(django_cache_manager.py lines 110-124): each record is re-invoked; on an
exception the record is skipped and the loop continues; on success the key
is recomputed with the namespace of the manager and overwritten, and the
success counter increments. Returns the final store and counter plus the
event trace. -/
def regLoop {V : Type} (nsname : Str) : DStore V → Nat → List (CallRec V) →
    (DStore V × Nat) × List (Ev V)
  | st, n, [] => ((st, n), [])
  | st, n, r :: rs =>
    if r.raises then
      ((regLoop nsname st n rs).1, Ev.invoke r :: (regLoop nsname st n rs).2)
    else
      ((regLoop nsname (dset st (regKey nsname r) r.value) (n + 1) rs).1,
        Ev.invoke r :: Ev.setK (regKey nsname r) ::
          (regLoop nsname (dset st (regKey nsname r) r.value) (n + 1) rs).2)

/-- Translation of the view walk of CacheManager.update
(django_cache_manager.py lines 128-133): for each record of the global view
mirror the view key is computed from the namespace of the record, deleted,
and the function re-invoked — with no exception handling, so a failure stops
the walk and propagates. delOk is the availability oracle of the store for
the DEL of each key: a false entry means that delete raises. A successful
invocation of a view function repopulates its own key as a side effect of
being called — modelled from the spec (section 4.4 step 4), the decorated
view functions being outside the sources. -/
def viewLoop {V : Type} (delOk : Str → Bool) : DStore V → List (CallRec V) →
    Except Unit (DStore V) × List (Ev V)
  | st, [] => (.ok st, [])
  | st, v :: vs =>
    if delOk (recKey v) then
      if v.raises then
        (.error (), [Ev.delK (recKey v), Ev.invoke v])
      else
        ((viewLoop delOk (dset (dremove (recKey v) st) (recKey v) v.value) vs).1,
          Ev.delK (recKey v) :: Ev.invoke v ::
            (viewLoop delOk (dset (dremove (recKey v) st) (recKey v) v.value) vs).2)
    else (.error (), [])

/-- The store produced by a fully successful view walk: each view key is
deleted then repopulated with the recomputed value, in mirror order. -/
def viewStore {V : Type} : DStore V → List (CallRec V) → DStore V
  | st, [] => st
  | st, v :: vs => viewStore (dset (dremove (recKey v) st) (recKey v) v.value) vs

/-- Translation of CacheManager.update (django_cache_manager.py lines
103-136): the registry loop with per-record exception isolation, then the
application-group-wide flush through the update manager, then the view walk
over the global mirror, and finally the success counter is returned. A
failure of the flush or of the view walk propagates to the caller. -/
def update {V : Type} (isStrict : Bool) (delOk : Str → Bool) (nsname app : Str)
    (records views : List (CallRec V)) (st : DStore V) :
    Except Unit (Nat × DStore V) × List (Ev V) :=
  match regLoop nsname st 0 records with
  | ((st1, n), evs1) =>
    match flush_app isStrict app st1 with
    | .error _ => (.error (), evs1)
    | .ok (_, st2) =>
      (match (viewLoop delOk st2 views).1 with
       | .ok st3 => .ok (n, st3)
       | .error e => .error e,
       evs1 ++ Ev.flushApp app :: (viewLoop delOk st2 views).2)

/-- A per-namespace registry as built by CacheUpdateManager.__init__
(django_cache_manager.py lines 22-24): the owning application-group name
from the static configuration, and the ordered records. -/
structure Registry (V : Type) where
  app_name : Str
  records : List (CallRec V)
deriving DecidableEq

/-- The fixed namespace-to-registry mapping owned by CacheUpdateManager. -/
structure CUM (V : Type) where
  mapping : List (Str × Registry V)
deriving DecidableEq

/-- The known namespace names, in mapping iteration order
(django_cache_manager.py lines 60-62). -/
def namespaces {V : Type} (cum : CUM V) : List Str := cum.mapping.map Prod.fst

/-- Translation of CacheUpdateManager.update_namespace (lines 36-41): the
registry is resolved and updated; an unknown namespace raises. The global
view mirror views is a class attribute of CacheManager, passed explicitly. -/
def update_namespace {V : Type} (isStrict : Bool) (delOk : Str → Bool)
    (views : List (CallRec V)) (cum : CUM V) (nsname : Str) (st : DStore V) :
    Except Unit (Nat × DStore V) × List (Ev V) :=
  match dlookup cum.mapping nsname with
  | none => (.error (), [])
  | some reg => update isStrict delOk nsname reg.app_name reg.records views st

/-- Translation of CacheUpdateManager.update_all (lines 43-47), iterating
the mapping directly since update_namespace resolves each listed namespace
to its own registry: results are collected in iteration order, and with no
exception handling a raised failure propagates immediately. -/
def update_all_go {V : Type} (isStrict : Bool) (delOk : Str → Bool)
    (views : List (CallRec V)) : List (Str × Registry V) → DStore V →
    Except Unit (List Nat × DStore V) × List (Ev V)
  | [], st => (.ok ([], st), [])
  | (nsname, reg) :: rest, st =>
    match update isStrict delOk nsname reg.app_name reg.records views st with
    | (.error e, evs) => (.error e, evs)
    | (.ok (n, st'), evs) =>
      (match (update_all_go isStrict delOk views rest st').1 with
       | .ok (l, stF) => .ok (n :: l, stF)
       | .error e => .error e,
       evs ++ (update_all_go isStrict delOk views rest st').2)

def update_all {V : Type} (isStrict : Bool) (delOk : Str → Bool)
    (views : List (CallRec V)) (cum : CUM V) (st : DStore V) :
    Except Unit (List Nat × DStore V) × List (Ev V) :=
  update_all_go isStrict delOk views cum.mapping st

/-- Translation of CacheUpdateManager.__setattr__ (lines 72-73): every
attribute assignment after construction raises AttributeError. -/
def CUM.setattr {V : Type} (_cum : CUM V) (_name : Str) (_reg : Registry V) :
    Except Unit (CUM V) := .error ()

/-- Translation of CacheUpdateManager.__delattr__ (lines 75-76): every
attribute deletion raises AttributeError. -/
def CUM.delattr {V : Type} (_cum : CUM V) (_name : Str) : Except Unit (CUM V) := .error ()

/-- Replacement of the registry bound to an existing namespace name; keys of
the mapping are untouched. -/
def mapUpdate {V : Type} : List (Str × Registry V) → Str → Registry V →
    List (Str × Registry V)
  | [], _, _ => []
  | (k, v) :: rest, q, reg =>
    if k = q then (k, reg) :: rest else (k, v) :: mapUpdate rest q reg

/-- Translation of CacheUpdateManager.add_to_manager (lines 26-34) together
with CacheManager.append (lines 95-101): if the namespace is known the
record is appended to its registry (and, when flagged as a view, to the
global mirror) and True is returned; otherwise nothing changes and False is
returned. The tuple-shape validation of append always passes in the typed
model. -/
def add_to_manager {V : Type} (cum : CUM V) (views : List (CallRec V))
    (nsname : Str) (r : CallRec V) : Bool × CUM V × List (CallRec V) :=
  match dlookup cum.mapping nsname with
  | none => (false, cum, views)
  | some reg =>
    (true, ⟨mapUpdate cum.mapping nsname ⟨reg.app_name, reg.records ++ [r]⟩⟩,
      if r.view then views ++ [r] else views)

theorem dlookup_dremove_self {V : Type} (st : DStore V) (q : Str) :
    dlookup (dremove q st) q = none := by
  induction st with
  | nil => rfl
  | cons p st ih =>
    obtain ⟨k, v⟩ := p
    by_cases hk : k = q
    · simpa [dremove, hk] using ih
    · simpa [dremove, hk, dlookup] using ih

theorem dlookup_dremove_ne {V : Type} (st : DStore V) (k q : Str) (h : k ≠ q) :
    dlookup (dremove k st) q = dlookup st q := by
  induction st with
  | nil => rfl
  | cons p st ih =>
    obtain ⟨k', v⟩ := p
    by_cases hk : k' = k
    · subst hk
      simp [dremove, dlookup, h, ih]
    · simp [dremove, hk, dlookup, ih]

theorem dlookup_flushStore {V : Type} (app : Str) (st : DStore V) (q : Str)
    (h : matchesApp app q = false) :
    dlookup (flushStore app st) q = dlookup st q := by
  induction st with
  | nil => rfl
  | cons p st ih =>
    obtain ⟨k, v⟩ := p
    by_cases hm : matchesApp app k
    · have hne : k ≠ q := by
        intro hk
        rw [hk, h] at hm
        simp at hm
      simp [flushStore, hm, dlookup, hne, ih]
    · simp [flushStore, hm, dlookup, ih]

theorem regLoop_store_preserve {V : Type} (nsname : Str) :
    ∀ (rs : List (CallRec V)) (st : DStore V) (n : Nat) (q : Str),
      (∀ r ∈ rs, regKey nsname r ≠ q) →
      dlookup (regLoop nsname st n rs).1.1 q = dlookup st q := by
  intro rs
  induction rs with
  | nil => intro st n q _; rfl
  | cons r rs ih =>
    intro st n q hk
    by_cases hr : r.raises
    · simpa [regLoop, hr] using ih st n q (fun w hw => hk w (List.mem_cons_of_mem _ hw))
    · have hne : regKey nsname r ≠ q := hk r (List.mem_cons_self r rs)
      simp only [regLoop, hr, Bool.false_eq_true, if_false]
      rw [ih _ _ _ (fun w hw => hk w (List.mem_cons_of_mem _ hw))]
      simp [dset, dlookup, hne]

theorem nodup_map_mem_inj {α β : Type _} (f : α → β) :
    ∀ (l : List α) (a b : α), (l.map f).Nodup → a ∈ l → b ∈ l → f a = f b → a = b := by
  intro l
  induction l with
  | nil => intro a b _ ha; exact absurd ha (List.not_mem_nil a)
  | cons x xs ih =>
    intro a b hnd ha hb hf
    rw [List.map_cons, List.nodup_cons] at hnd
    rcases List.mem_cons.mp ha with rfl | ha'
    · rcases List.mem_cons.mp hb with rfl | hb'
      · rfl
      · exact absurd (hf ▸ List.mem_map_of_mem f hb') hnd.1
    · rcases List.mem_cons.mp hb with rfl | hb'
      · exact absurd (hf ▸ List.mem_map_of_mem f ha') hnd.1
      · exact ih a b hnd.2 ha' hb' hf

theorem regLoop_store_found {V : Type} (nsname : Str) :
    ∀ (rs : List (CallRec V)) (st : DStore V) (n : Nat) (r : CallRec V),
      r ∈ rs → r.raises = false → (rs.map (regKey nsname)).Nodup →
      dlookup (regLoop nsname st n rs).1.1 (regKey nsname r) = some r.value := by
  intro rs
  induction rs with
  | nil => intro st n r hr; exact absurd hr (List.not_mem_nil r)
  | cons x xs ih =>
    intro st n r hr hnr hnd
    rw [List.map_cons, List.nodup_cons] at hnd
    rcases List.mem_cons.mp hr with rfl | hr'
    · simp only [regLoop, hnr, Bool.false_eq_true, if_false]
      have hpres : ∀ w ∈ xs, regKey nsname w ≠ regKey nsname r := by
        intro w hw heq
        exact hnd.1 (heq ▸ List.mem_map_of_mem (regKey nsname) hw)
      rw [regLoop_store_preserve nsname xs _ _ _ hpres]
      simp [dset, dlookup]
    · by_cases hx : x.raises
      · simpa [regLoop, hx] using ih st n r hr' hnr hnd.2
      · simp only [regLoop, hx, Bool.false_eq_true, if_false]
        exact ih _ _ r hr' hnr hnd.2

theorem regLoop_count {V : Type} (nsname : Str) :
    ∀ (rs : List (CallRec V)) (st : DStore V) (n : Nat),
      (regLoop nsname st n rs).1.2 = n + (rs.filter fun r => !r.raises).length := by
  intro rs
  induction rs with
  | nil => intro st n; simp [regLoop]
  | cons r rs ih =>
    intro st n
    by_cases hr : r.raises
    · simp [regLoop, hr, ih]
    · simp only [regLoop, hr, Bool.false_eq_true, if_false]
      rw [ih]
      simp [List.filter, hr]
      omega

theorem viewLoop_ok {V : Type} (delOk : Str → Bool) :
    ∀ (vs : List (CallRec V)) (st : DStore V),
      (∀ v ∈ vs, v.raises = false) → (∀ v ∈ vs, delOk (recKey v) = true) →
      (viewLoop delOk st vs).1 = .ok (viewStore st vs) := by
  intro vs
  induction vs with
  | nil => intro st _ _; rfl
  | cons v vs ih =>
    intro st hnr hdel
    have hv : v.raises = false := hnr v (List.mem_cons_self v vs)
    have hd : delOk (recKey v) = true := hdel v (List.mem_cons_self v vs)
    simp only [viewLoop, hd, if_true, hv, Bool.false_eq_true, if_false]
    rw [ih _ (fun w hw => hnr w (List.mem_cons_of_mem _ hw))
      (fun w hw => hdel w (List.mem_cons_of_mem _ hw))]
    rfl

theorem viewStore_preserve {V : Type} :
    ∀ (vs : List (CallRec V)) (st : DStore V) (q : Str),
      (∀ v ∈ vs, recKey v ≠ q) →
      dlookup (viewStore st vs) q = dlookup st q := by
  intro vs
  induction vs with
  | nil => intro st q _; rfl
  | cons v vs ih =>
    intro st q hk
    have hne : recKey v ≠ q := hk v (List.mem_cons_self v vs)
    rw [viewStore, ih _ _ (fun w hw => hk w (List.mem_cons_of_mem _ hw))]
    rw [dset]
    rw [dlookup_cons_ne _ _ _ _ hne]
    exact dlookup_dremove_ne st (recKey v) q hne

theorem viewStore_found {V : Type} :
    ∀ (va : List (CallRec V)) (v : CallRec V) (vb : List (CallRec V)) (st : DStore V),
      (∀ w ∈ vb, recKey w ≠ recKey v) →
      dlookup (viewStore st (va ++ v :: vb)) (recKey v) = some v.value := by
  intro va
  induction va with
  | nil =>
    intro v vb st hvb
    rw [List.nil_append, viewStore, viewStore_preserve vb _ _ hvb]
    simp [dset, dlookup]
  | cons w va ih =>
    intro v vb st hvb
    rw [List.cons_append, viewStore]
    exact ih v vb _ hvb

theorem map_congr_mem {α β : Type _} (f g : α → β) :
    ∀ (l : List α), (∀ a ∈ l, f a = g a) → l.map f = l.map g := by
  intro l
  induction l with
  | nil => intro _; rfl
  | cons x xs ih =>
    intro h
    rw [List.map_cons, List.map_cons, h x (List.mem_cons_self x xs),
      ih (fun a ha => h a (List.mem_cons_of_mem _ ha))]

/-- C4: as stated the claim fails on the source. When the single raising
record is flagged as a view, it sits in the global view mirror as well: the
registry loop skips it, but the view walk re-invokes it with no exception
handling, so update raises instead of returning the success count N-1. -/
theorem C4_counterexample :
    (update false (fun _ => true) ['n'] ['a']
      [(⟨0, true, 0, false, true, ['n'], ['f'], []⟩ : CallRec Nat)]
      [⟨0, true, 0, false, true, ['n'], ['f'], []⟩] []).1 = .error () := by
  rfl

/-- C4 (amended): update(namespace) on a registry of N records with pairwise
distinct cache keys, none matching the application-group flush pattern, all
belonging to the namespace being updated, in which exactly one record raises
on re-invocation and that record is not a view record, with the global view
mirror holding exactly the view-flagged records of this registry and all
store operations succeeding: the call returns the success count N-1
(written l.length + rr.length for the split l ++ [failing] ++ rr), and a
read of the key of every non-failing record in the final store yields the
freshly recomputed value of that record. Without the added provisos the
statement fails, see the counterexample and the reasons recorded with it. -/
theorem C4_update_partial_failure {V : Type} (nsname app : Str)
    (l rr : List (CallRec V)) (rb : CallRec V) (st : DStore V)
    (hns : ∀ r ∈ l ++ rb :: rr, r.ns = nsname)
    (hra : rb.raises = true) (hbv : rb.view = false)
    (hnr : ∀ r ∈ l ++ rr, r.raises = false)
    (hkeys : ((l ++ rb :: rr).map recKey).Nodup)
    (hpat : ∀ r ∈ l ++ rb :: rr, matchesApp app (recKey r) = false) :
    ∃ st', (update false (fun _ => true) nsname app (l ++ rb :: rr)
        ((l ++ rb :: rr).filter fun r => r.view) st).1 = .ok (l.length + rr.length, st') ∧
      ∀ r ∈ l ++ rr, dlookup st' (recKey r) = some r.value := by
  set rs := l ++ rb :: rr with hrs
  set vws := rs.filter (fun r => r.view) with hvws
  have hkey : ∀ r ∈ rs, regKey nsname r = recKey r := by
    intro r hr
    rw [recKey, hns r hr]
  have hmapeq : rs.map (regKey nsname) = rs.map recKey := map_congr_mem _ _ rs hkey
  have hkeys' : (rs.map (regKey nsname)).Nodup := by rw [hmapeq]; exact hkeys
  have hmem_lr : ∀ v, v ∈ rs → v.view = true → v ∈ l ++ rr := by
    intro v hv hvv
    rcases List.mem_append.mp hv with h | h
    · exact List.mem_append.mpr (Or.inl h)
    · rcases List.mem_cons.mp h with rfl | h'
      · rw [hbv] at hvv; exact absurd hvv (by simp)
      · exact List.mem_append.mpr (Or.inr h')
  have hvs_mem : ∀ v ∈ vws, v ∈ rs ∧ v.view = true := by
    intro v hv
    have := List.mem_filter.mp hv
    exact ⟨this.1, this.2⟩
  have hvs_nr : ∀ v ∈ vws, v.raises = false := by
    intro v hv
    obtain ⟨hv1, hv2⟩ := hvs_mem v hv
    exact hnr v (hmem_lr v hv1 hv2)
  rcases hreg : regLoop nsname st 0 rs with ⟨⟨st1, n⟩, evs1⟩
  have hok : (viewLoop (fun _ => true) (flushStore app st1) vws).1 =
      .ok (viewStore (flushStore app st1) vws) :=
    viewLoop_ok _ vws _ hvs_nr (fun v _ => rfl)
  have hupd : (update false (fun _ => true) nsname app rs vws st).1 =
      .ok (n, viewStore (flushStore app st1) vws) := by
    unfold update
    rw [hreg]
    show (match flush_app false app st1 with
      | .error _ => ((.error (), evs1) : Except Unit (Nat × DStore V) × List (Ev V))
      | .ok (_, st2) =>
        (match (viewLoop (fun _ => true) st2 vws).1 with
         | .ok st3 => .ok (n, st3)
         | .error e => .error e,
         evs1 ++ Ev.flushApp app :: (viewLoop (fun _ => true) st2 vws).2)).1 = _
    have hfl : flush_app false app st1 =
        .ok ((st1.filter fun p => matchesApp app p.1).length, flushStore app st1) := rfl
    rw [hfl]
    simp only [hok]
  have hn : n = l.length + rr.length := by
    have hc := regLoop_count nsname rs st 0
    rw [hreg] at hc
    have hfilter : rs.filter (fun r => !r.raises) = l ++ rr := by
      rw [hrs, List.filter_append]
      have h1 : l.filter (fun r => !r.raises) = l :=
        List.filter_eq_self.mpr (fun a ha => by
          rw [hnr a (List.mem_append.mpr (Or.inl ha))]; rfl)
      have h2 : (rb :: rr).filter (fun r => !r.raises) = rr := by
        have hfe : rr.filter (fun r => !r.raises) = rr :=
          List.filter_eq_self.mpr (fun a ha => by
            rw [hnr a (List.mem_append.mpr (Or.inr ha))]; rfl)
        rw [List.filter_cons, hra]
        simpa using hfe
      rw [h1, h2]
    rw [hfilter] at hc
    simpa using hc
  refine ⟨viewStore (flushStore app st1) vws, by rw [hupd, hn], ?_⟩
  intro r hr
  have hrmem : r ∈ rs := by
    rcases List.mem_append.mp hr with h | h
    · exact List.mem_append.mpr (Or.inl h)
    · exact List.mem_append.mpr (Or.inr (List.mem_cons_of_mem _ h))
  have hst1 : dlookup st1 (recKey r) = some r.value := by
    have := regLoop_store_found nsname rs st 0 r hrmem (hnr r hr) hkeys'
    rw [hreg, hkey r hrmem] at this
    exact this
  have hfl : dlookup (flushStore app st1) (recKey r) = some r.value := by
    rw [dlookup_flushStore app st1 _ (hpat r hrmem), hst1]
  by_cases hrv : r.view
  · have hrvws : r ∈ vws := List.mem_filter.mpr ⟨hrmem, hrv⟩
    obtain ⟨va, vb, hsplit⟩ := List.append_of_mem hrvws
    have hvnd : (vws.map recKey).Nodup :=
      List.Nodup.sublist (List.Sublist.map recKey (List.filter_sublist rs)) hkeys
    have hvb : ∀ w ∈ vb, recKey w ≠ recKey r := by
      intro w hw heq
      have h1 : (vws.map recKey) = va.map recKey ++ recKey r :: vb.map recKey := by
        rw [hsplit, List.map_append, List.map_cons]
      rw [h1] at hvnd
      have h2 := (List.nodup_cons.mp (List.Nodup.of_append_right hvnd)).1
      exact h2 (heq ▸ List.mem_map_of_mem recKey hw)
    rw [hsplit]
    exact viewStore_found va r vb _ hvb
  · have hpres : ∀ v ∈ vws, recKey v ≠ recKey r := by
      intro v hv heq
      obtain ⟨hv1, hv2⟩ := hvs_mem v hv
      have := nodup_map_mem_inj recKey rs v r hkeys hv1 hrmem heq
      rw [this] at hv2
      rw [hv2] at hrv
      exact hrv rfl
    rw [viewStore_preserve vws _ _ hpres]
    exact hfl

/-- A non-raising, non-view record used to instantiate the C4 theorem. -/
def r1c : CallRec Nat := ⟨1, false, 11, false, false, ['n'], ['g'], []⟩

/-- A raising, non-view record used to instantiate the C4 theorem. -/
def rbc : CallRec Nat := ⟨0, true, 0, false, false, ['n'], ['f'], []⟩

theorem C4_update_partial_failure_witness :
    rbc.raises = true ∧ rbc.view = false ∧ r1c.raises = false ∧
    (∀ r ∈ [r1c] ++ rbc :: [], matchesApp ['a'] (recKey r) = false) ∧
    (∃ st', (update false (fun _ => true) ['n'] ['a'] ([r1c] ++ rbc :: [])
        (([r1c] ++ rbc :: []).filter fun r => r.view) []).1 =
        .ok ([r1c].length + ([] : List (CallRec Nat)).length, st') ∧
      ∀ r ∈ [r1c] ++ ([] : List (CallRec Nat)), dlookup st' (recKey r) = some r.value) :=
  ⟨rfl, rfl, rfl, by decide,
   C4_update_partial_failure ['n'] ['a'] [r1c] [] rbc []
     (by decide) rfl rfl (by decide) (by decide) (by decide)⟩

theorem mem_idx {α : Type _} :
    ∀ (l : List α) (a : α), a ∈ l → ∃ j, j < l.length ∧ l.get? j = some a := by
  intro l
  induction l with
  | nil => intro a ha; exact absurd ha (List.not_mem_nil a)
  | cons x xs ih =>
    intro a ha
    rcases List.mem_cons.mp ha with rfl | ha'
    · exact ⟨0, by simp, rfl⟩
    · obtain ⟨j, hj, hg⟩ := ih a ha'
      exact ⟨j + 1, by simpa using hj, by simpa using hg⟩

theorem regLoop_ev_shape {V : Type} (nsname : Str) :
    ∀ (rs : List (CallRec V)) (st : DStore V) (n : Nat) (e : Ev V),
      e ∈ (regLoop nsname st n rs).2 →
      (∃ r, e = Ev.invoke r) ∨ (∃ k, e = Ev.setK k) := by
  intro rs
  induction rs with
  | nil => intro st n e he; simp [regLoop] at he
  | cons r rs ih =>
    intro st n e he
    by_cases hr : r.raises
    · simp only [regLoop, hr, if_true] at he
      rcases List.mem_cons.mp he with rfl | he'
      · exact Or.inl ⟨r, rfl⟩
      · exact ih _ _ e he'
    · simp only [regLoop, hr, Bool.false_eq_true, if_false] at he
      rcases List.mem_cons.mp he with rfl | he'
      · exact Or.inl ⟨r, rfl⟩
      · rcases List.mem_cons.mp he' with rfl | he''
        · exact Or.inr ⟨regKey nsname r, rfl⟩
        · exact ih _ _ e he''

theorem regLoop_invoke_mem {V : Type} (nsname : Str) :
    ∀ (rs : List (CallRec V)) (st : DStore V) (n : Nat) (r : CallRec V),
      r ∈ rs → Ev.invoke r ∈ (regLoop nsname st n rs).2 := by
  intro rs
  induction rs with
  | nil => intro st n r hr; exact absurd hr (List.not_mem_nil r)
  | cons x xs ih =>
    intro st n r hr
    by_cases hx : x.raises
    · simp only [regLoop, hx, if_true]
      rcases List.mem_cons.mp hr with rfl | hr'
      · exact List.mem_cons_self _ _
      · exact List.mem_cons_of_mem _ (ih _ _ r hr')
    · simp only [regLoop, hx, Bool.false_eq_true, if_false]
      rcases List.mem_cons.mp hr with rfl | hr'
      · exact List.mem_cons_self _ _
      · exact List.mem_cons_of_mem _ (List.mem_cons_of_mem _ (ih _ _ r hr'))

theorem viewLoop_ev_shape {V : Type} (delOk : Str → Bool) :
    ∀ (vs : List (CallRec V)) (st : DStore V) (e : Ev V),
      e ∈ (viewLoop delOk st vs).2 →
      (∃ k, e = Ev.delK k) ∨ (∃ v, e = Ev.invoke v) := by
  intro vs
  induction vs with
  | nil => intro st e he; simp [viewLoop] at he
  | cons w vs ih =>
    intro st e he
    by_cases hd : delOk (recKey w)
    · by_cases hw : w.raises
      · simp only [viewLoop, hd, if_true, hw] at he
        rcases List.mem_cons.mp he with rfl | he'
        · exact Or.inl ⟨recKey w, rfl⟩
        · rcases List.mem_cons.mp he' with rfl | he''
          · exact Or.inr ⟨w, rfl⟩
          · exact absurd he'' (List.not_mem_nil e)
      · simp only [viewLoop, hd, if_true, hw, Bool.false_eq_true, if_false] at he
        rcases List.mem_cons.mp he with rfl | he'
        · exact Or.inl ⟨recKey w, rfl⟩
        · rcases List.mem_cons.mp he' with rfl | he''
          · exact Or.inr ⟨w, rfl⟩
          · exact ih _ e he''
    · simp only [viewLoop, hd, Bool.false_eq_true, if_false] at he
      exact absurd he (List.not_mem_nil e)

theorem viewLoop_invoke_preceded {V : Type} (delOk : Str → Bool) :
    ∀ (vs : List (CallRec V)) (st : DStore V) (j : Nat) (v : CallRec V),
      (viewLoop delOk st vs).2.get? j = some (Ev.invoke v) →
      1 ≤ j ∧ (viewLoop delOk st vs).2.get? (j - 1) = some (Ev.delK (recKey v)) := by
  intro vs
  induction vs with
  | nil => intro st j v h; simp [viewLoop] at h
  | cons w vs ih =>
    intro st j v h
    by_cases hd : delOk (recKey w)
    · by_cases hw : w.raises
      · simp only [viewLoop, hd, if_true, hw] at h ⊢
        match j, h with
        | 1, h =>
          have hv : w = v := by simpa using h
          exact ⟨le_refl 1, by rw [← hv]; rfl⟩
      · simp only [viewLoop, hd, if_true, hw, Bool.false_eq_true, if_false] at h ⊢
        match j, h with
        | 1, h =>
          have hv : w = v := by simpa using h
          exact ⟨le_refl 1, by rw [← hv]; rfl⟩
        | (m + 2), h =>
          have hrec := ih _ m v (by simpa using h)
          obtain ⟨m', hm'⟩ : ∃ m', m = m' + 1 := ⟨m - 1, by omega⟩
          subst hm'
          refine ⟨by omega, ?_⟩
          show (viewLoop delOk _ vs).2.get? m' = _
          simpa using hrec.2
    · simp only [viewLoop, hd, Bool.false_eq_true, if_false] at h
      simp at h

/-- C5: in every update run, any occurrence of the application-group-wide
flush event is strictly preceded by an invocation event for every record of
the registry being updated (the flush happens only after the whole registry
loop), and any invocation event after the flush — the view walk — is
strictly preceded, after the flush, by the deletion of the cache key of the
record being invoked: the view path deletes before it re-invokes. -/
theorem C5_flush_and_view_order {V : Type} (isStrict : Bool) (delOk : Str → Bool)
    (nsname app : Str) (records views : List (CallRec V)) (st : DStore V)
    (tr : List (Ev V))
    (htr : tr = (update isStrict delOk nsname app records views st).2) :
    (∀ p, tr.get? p = some (Ev.flushApp app) →
      ∀ r ∈ records, ∃ j, j < p ∧ tr.get? j = some (Ev.invoke r)) ∧
    (∀ p k v, tr.get? p = some (Ev.flushApp app) → p < k →
      tr.get? k = some (Ev.invoke v) →
      ∃ j, p < j ∧ j < k ∧ tr.get? j = some (Ev.delK (recKey v))) := by
  rcases hreg : regLoop nsname st 0 records with ⟨⟨st1, n⟩, evs1⟩
  have hshape1 : ∀ e ∈ evs1, ∀ a, e ≠ Ev.flushApp a := by
    intro e he a
    have := regLoop_ev_shape nsname records st 0 e (by rw [hreg]; exact he)
    rcases this with ⟨r, rfl⟩ | ⟨k, rfl⟩ <;> intro hc <;> cases hc
  cases hf : flush_app isStrict app st1 with
  | error e =>
    have htr1 : tr = evs1 := by
      rw [htr]
      unfold update
      rw [hreg]
      dsimp only
      rw [hf]
    constructor
    · intro p hp
      exact absurd rfl (hshape1 _ (List.get?_mem (htr1 ▸ hp)) app)
    · intro p k v hp
      exact absurd rfl (hshape1 _ (List.get?_mem (htr1 ▸ hp)) app)
  | ok pr =>
    obtain ⟨cnt, st2⟩ := pr
    have htr1 : tr = evs1 ++ Ev.flushApp app :: (viewLoop delOk st2 views).2 := by
      rw [htr]
      unfold update
      rw [hreg]
      dsimp only
      rw [hf]
    set evs2 := (viewLoop delOk st2 views).2 with hevs2
    have hshape2 : ∀ e ∈ evs2, ∀ a, e ≠ Ev.flushApp a := by
      intro e he a
      have := viewLoop_ev_shape delOk views st2 e he
      rcases this with ⟨k, rfl⟩ | ⟨v, rfl⟩ <;> intro hc <;> cases hc
    have hpos : ∀ p, tr.get? p = some (Ev.flushApp app) → p = evs1.length := by
      intro p hp
      rcases lt_trichotomy p evs1.length with hlt | heq | hgt
      · rw [htr1, List.get?_append hlt] at hp
        exact absurd rfl (hshape1 _ (List.get?_mem hp) app)
      · exact heq
      · rw [htr1, List.get?_append_right (by omega)] at hp
        obtain ⟨m, hm⟩ : ∃ m, p - evs1.length = m + 1 := ⟨p - evs1.length - 1, by omega⟩
        rw [hm] at hp
        simp only [List.get?_cons_succ] at hp
        exact absurd rfl (hshape2 _ (List.get?_mem hp) app)
    constructor
    · intro p hp r hr
      have hpe := hpos p hp
      have hm : Ev.invoke r ∈ evs1 := by
        have := regLoop_invoke_mem nsname records st 0 r hr
        rw [hreg] at this
        exact this
      obtain ⟨j, hj, hg⟩ := mem_idx evs1 _ hm
      refine ⟨j, by omega, ?_⟩
      rw [htr1, List.get?_append hj]
      exact hg
    · intro p k v hp hpk hk
      have hpe := hpos p hp
      subst hpe
      have hkidx : tr.get? k = evs2.get? (k - evs1.length - 1) := by
        rw [htr1, List.get?_append_right (by omega)]
        obtain ⟨m, hm⟩ : ∃ m, k - evs1.length = m + 1 := ⟨k - evs1.length - 1, by omega⟩
        rw [hm]
        simp only [List.get?_cons_succ]
        simp
      rw [hkidx] at hk
      obtain ⟨h1, h2⟩ := viewLoop_invoke_preceded delOk views st2 _ v hk
      refine ⟨evs1.length + (k - evs1.length - 1), by omega, by omega, ?_⟩
      rw [htr1, List.get?_append_right (by omega)]
      obtain ⟨m, hm⟩ : ∃ m, evs1.length + (k - evs1.length - 1) - evs1.length = m + 1 :=
        ⟨k - evs1.length - 2, by omega⟩
      rw [hm]
      simp only [List.get?_cons_succ]
      have : m = k - evs1.length - 1 - 1 := by omega
      rw [this]
      exact h2

/-- A non-raising registry record used to instantiate the C5 theorem. -/
def r5 : CallRec Nat := ⟨2, false, 5, false, false, ['n'], ['p'], []⟩

/-- A non-raising view record used to instantiate the C5 theorem. -/
def v5 : CallRec Nat := ⟨3, false, 7, false, true, ['n'], ['q'], []⟩

theorem C5_flush_and_view_order_witness :
    ((update false (fun _ => true) ['n'] ['a'] [r5] [v5] ([] : DStore Nat)).2.get? 2 =
      some (Ev.flushApp ['a'])) ∧
    (∃ j, j < 2 ∧
      (update false (fun _ => true) ['n'] ['a'] [r5] [v5] ([] : DStore Nat)).2.get? j =
        some (Ev.invoke r5)) ∧
    (∃ j, 2 < j ∧ j < 4 ∧
      (update false (fun _ => true) ['n'] ['a'] [r5] [v5] ([] : DStore Nat)).2.get? j =
        some (Ev.delK (recKey v5))) :=
  ⟨rfl,
   (C5_flush_and_view_order false (fun _ => true) ['n'] ['a'] [r5] [v5] [] _ rfl).1
     2 rfl r5 (List.mem_cons_self r5 []),
   (C5_flush_and_view_order false (fun _ => true) ['n'] ['a'] [r5] [v5] [] _ rfl).2
     2 4 v5 rfl (by omega) rfl⟩

theorem viewLoop_fail {V : Type} (delOk : Str → Bool) (v : CallRec V) (vb : List (CallRec V))
    (hv : v.raises = true ∨ delOk (recKey v) = false) :
    ∀ (va : List (CallRec V)) (st : DStore V),
      (∀ w ∈ va, w.raises = false ∧ delOk (recKey w) = true) →
      (viewLoop delOk st (va ++ v :: vb)).1 = .error () ∧
      (viewLoop delOk st (va ++ v :: vb)).2.length ≤ 2 * va.length + 2 := by
  intro va
  induction va with
  | nil =>
    intro st _
    rcases hv with hr | hd
    · by_cases hdo : delOk (recKey v)
      · simp [viewLoop, hdo, hr]
      · simp [viewLoop, hdo]
    · simp [viewLoop, hd]
  | cons w va ih =>
    intro st hva
    have hw := hva w (List.mem_cons_self w va)
    obtain ⟨h1, h2⟩ := ih _ (fun u hu => hva u (List.mem_cons_of_mem _ hu))
    simp only [List.cons_append, viewLoop, hw.2, if_true, hw.1, Bool.false_eq_true, if_false]
    refine ⟨h1, ?_⟩
    simp only [List.length_cons]
    simp only [List.append_eq] at h2 ⊢
    omega

/-- C9: if a record of the global view mirror fails during the view walk of
update — its function raises on re-invocation, or the store raises on the
DEL of its key — the exception propagates to the caller of update, the view
records after it contribute nothing to the trace (the walk stops: everything
after the flush event is at most the two events per preceding view record
plus the failing one), and no success count is returned. -/
theorem C9_view_failure_propagates {V : Type} (delOk : Str → Bool) (nsname app : Str)
    (records : List (CallRec V)) (va : List (CallRec V)) (v : CallRec V)
    (vb : List (CallRec V)) (st : DStore V)
    (hva : ∀ w ∈ va, w.raises = false ∧ delOk (recKey w) = true)
    (hv : v.raises = true ∨ delOk (recKey v) = false) :
    (update false delOk nsname app records (va ++ v :: vb) st).1 = .error () ∧
    ∃ vtr, (update false delOk nsname app records (va ++ v :: vb) st).2 =
        (regLoop nsname st 0 records).2 ++ Ev.flushApp app :: vtr ∧
      vtr.length ≤ 2 * va.length + 2 := by
  rcases hreg : regLoop nsname st 0 records with ⟨⟨st1, n⟩, evs1⟩
  obtain ⟨h1, h2⟩ := viewLoop_fail delOk v vb hv va (flushStore app st1) hva
  have hupd : update false delOk nsname app records (va ++ v :: vb) st =
      (.error (), evs1 ++ Ev.flushApp app ::
        (viewLoop delOk (flushStore app st1) (va ++ v :: vb)).2) := by
    unfold update
    rw [hreg]
    dsimp only
    rw [show flush_app false app st1 =
      .ok ((st1.filter fun p => matchesApp app p.1).length, flushStore app st1) from rfl]
    dsimp only
    rw [h1]
  refine ⟨by rw [hupd], (viewLoop delOk (flushStore app st1) (va ++ v :: vb)).2, ?_, h2⟩
  rw [hupd]

/-- A raising view record used to instantiate the C9 theorem. -/
def v9 : CallRec Nat := ⟨4, true, 9, false, true, ['n'], ['r'], []⟩

theorem C9_view_failure_propagates_witness :
    (v9.raises = true ∨ (fun _ : Str => true) (recKey v9) = false) ∧
    ((update false (fun _ => true) ['n'] ['a'] [] ([] ++ v9 :: []) ([] : DStore Nat)).1 =
      .error () ∧
    ∃ vtr, (update false (fun _ => true) ['n'] ['a'] [] ([] ++ v9 :: [])
        ([] : DStore Nat)).2 =
        (regLoop ['n'] ([] : DStore Nat) 0 []).2 ++ Ev.flushApp ['a'] :: vtr ∧
      vtr.length ≤ 2 * ([] : List (CallRec Nat)).length + 2) :=
  ⟨Or.inl rfl,
   C9_view_failure_propagates (fun _ => true) ['n'] ['a'] [] [] v9 [] []
     (by decide) (Or.inl rfl)⟩

/-- A raising view record registered under the first namespace, used for the
C1 counterexample. -/
def vbad1 : CallRec Nat := ⟨5, true, 1, false, true, ['a'], ['s'], []⟩

/-- A well-behaved record registered under the second namespace, used for
the C1 counterexample. -/
def rgood1 : CallRec Nat := ⟨6, false, 2, false, false, ['b'], ['t'], []⟩

/-- C1: as stated the claim fails on the source. update_all has no exception
handling around update_namespace, so when the update of the first namespace
raises (here through its raising view record), the whole call raises: no
result sequence is produced and the second namespace is never attempted —
its record is never invoked. -/
theorem C1_counterexample :
    (update_all false (fun _ => true) [vbad1]
      ⟨[(['a'], ⟨['x'], [vbad1]⟩), (['b'], ⟨['y'], [rgood1]⟩)]⟩ ([] : DStore Nat)).1 =
      .error () ∧
    Ev.invoke rgood1 ∉ (update_all false (fun _ => true) [vbad1]
      ⟨[(['a'], ⟨['x'], [vbad1]⟩), (['b'], ⟨['y'], [rgood1]⟩)]⟩ ([] : DStore Nat)).2 :=
  ⟨rfl, by decide⟩

/-- C1 (amended): update_all walks the known namespaces in the iteration
order of the mapping, collecting one result per namespace into an ordered
sequence as long as every update succeeds (a returned sequence always has
exactly one entry per namespace); but a raised failure in one namespace
update propagates immediately: update_all raises, and the namespaces after
the failing one are not attempted — the whole trace is the trace of the
successful prefix followed by the trace of the failing update, with no
events from the remaining namespaces. -/
theorem C1_update_all_aborts {V : Type} (isStrict : Bool) (delOk : Str → Bool)
    (views : List (CallRec V)) :
    (∀ (cum : CUM V) (st : DStore V) (l : List Nat) (stF : DStore V),
      (update_all isStrict delOk views cum st).1 = .ok (l, stF) →
      l.length = cum.mapping.length) ∧
    (∀ (m1 : List (Str × Registry V)) (x : Str × Registry V)
        (m2 : List (Str × Registry V)) (st : DStore V) (l1 : List Nat) (st1 : DStore V),
      (update_all isStrict delOk views ⟨m1⟩ st).1 = .ok (l1, st1) →
      (update isStrict delOk x.1 x.2.app_name x.2.records views st1).1 = .error () →
      (update_all isStrict delOk views ⟨m1 ++ x :: m2⟩ st).1 = .error () ∧
      (update_all isStrict delOk views ⟨m1 ++ x :: m2⟩ st).2 =
        (update_all isStrict delOk views ⟨m1⟩ st).2 ++
          (update isStrict delOk x.1 x.2.app_name x.2.records views st1).2) := by
  constructor
  · intro cum
    show ∀ (st : DStore V) (l : List Nat) (stF : DStore V),
      (update_all_go isStrict delOk views cum.mapping st).1 = .ok (l, stF) →
      l.length = cum.mapping.length
    induction cum.mapping with
    | nil =>
      intro st l stF h
      simp only [update_all_go] at h
      have : ([] : List Nat) = l := by
        have := h
        simp at this
        exact this.1.symm
      rw [← this]
      rfl
    | cons p rest ih =>
      obtain ⟨nsname, reg⟩ := p
      intro st l stF h
      simp only [update_all_go] at h
      rcases hu : update isStrict delOk nsname reg.app_name reg.records views st with ⟨res, evs⟩
      rw [hu] at h
      cases res with
      | error e => simp at h
      | ok pr =>
        obtain ⟨n, st'⟩ := pr
        dsimp only at h
        cases hgo : (update_all_go isStrict delOk views rest st').1 with
        | error e2 => rw [hgo] at h; simp at h
        | ok pr2 =>
          obtain ⟨l', stF'⟩ := pr2
          rw [hgo] at h
          simp only [Except.ok.injEq, Prod.mk.injEq] at h
          obtain ⟨hl, _⟩ := h
          rw [← hl]
          simp [ih st' l' stF' hgo]
  · intro m1
    induction m1 with
    | nil =>
      intro x m2 st l1 st1 h hfail
      obtain ⟨nsx, regx⟩ := x
      have hst : st = st1 := by
        simp only [update_all, update_all_go] at h
        simp at h
        exact h.2
      subst hst
      rcases hu : update isStrict delOk nsx regx.app_name regx.records views st with ⟨res, evs⟩
      rw [hu] at hfail
      dsimp only at hfail
      subst hfail
      show (update_all_go isStrict delOk views ([] ++ (nsx, regx) :: m2) st).1 = _ ∧ _
      rw [List.nil_append]
      simp only [update_all, update_all_go]
      rw [hu]
      exact ⟨rfl, rfl⟩
    | cons y m1' ih =>
      intro x m2 st l1 st1 h hfail
      obtain ⟨nsy, regy⟩ := y
      obtain ⟨nsx, regx⟩ := x
      simp only [update_all, update_all_go, List.cons_append] at h ⊢
      rcases hu : update isStrict delOk nsy regy.app_name regy.records views st with ⟨res, evs⟩
      rw [hu] at h
      cases res with
      | error e => simp at h
      | ok pr =>
        obtain ⟨n, st'⟩ := pr
        dsimp only at h ⊢
        cases hgo : (update_all_go isStrict delOk views m1' st').1 with
        | error e2 => rw [hgo] at h; simp at h
        | ok pr2 =>
          obtain ⟨l', st1'⟩ := pr2
          rw [hgo] at h
          simp only [Except.ok.injEq, Prod.mk.injEq] at h
          obtain ⟨_, hst1⟩ := h
          have IH := ih ⟨nsx, regx⟩ m2 st' l' st1
            (by simp only [update_all]; rw [hgo, hst1]) hfail
          simp only [update_all] at IH
          simp only [List.append_eq]
          refine ⟨?_, ?_⟩
          · rw [IH.1]
          · rw [IH.2, List.append_assoc]

theorem C1_update_all_aborts_witness :
    (([1] : List Nat).length =
      ([(['b'], (⟨['y'], [rgood1]⟩ : Registry Nat))] : List (Str × Registry Nat)).length) ∧
    ((update_all false (fun _ => true) [vbad1]
        ⟨[] ++ (['a'], (⟨['x'], [vbad1]⟩ : Registry Nat)) ::
          [(['b'], ⟨['y'], [rgood1]⟩)]⟩ ([] : DStore Nat)).1 = .error () ∧
     (update_all false (fun _ => true) [vbad1]
        ⟨[] ++ (['a'], (⟨['x'], [vbad1]⟩ : Registry Nat)) ::
          [(['b'], ⟨['y'], [rgood1]⟩)]⟩ ([] : DStore Nat)).2 =
       (update_all false (fun _ => true) [vbad1] ⟨[]⟩ ([] : DStore Nat)).2 ++
         (update false (fun _ => true) (['a'], (⟨['x'], [vbad1]⟩ : Registry Nat)).1
           (['a'], (⟨['x'], [vbad1]⟩ : Registry Nat)).2.app_name
           (['a'], (⟨['x'], [vbad1]⟩ : Registry Nat)).2.records [vbad1]
           ([] : DStore Nat)).2) :=
  ⟨(C1_update_all_aborts false (fun _ => true) ([] : List (CallRec Nat))).1
      ⟨[(['b'], ⟨['y'], [rgood1]⟩)]⟩ [] [1] [(['b', ':', 't'], 2)] rfl,
   (C1_update_all_aborts false (fun _ => true) [vbad1]).2
      [] (['a'], ⟨['x'], [vbad1]⟩) [(['b'], ⟨['y'], [rgood1]⟩)] [] [] [] rfl rfl⟩

theorem mapUpdate_keys {V : Type} :
    ∀ (m : List (Str × Registry V)) (q : Str) (reg : Registry V),
      (mapUpdate m q reg).map Prod.fst = m.map Prod.fst := by
  intro m
  induction m with
  | nil => intro q reg; rfl
  | cons p rest ih =>
    intro q reg
    obtain ⟨k, v⟩ := p
    by_cases hk : k = q
    · simp [mapUpdate, hk]
    · simp [mapUpdate, hk, ih]

/-- C8: the namespace mapping of the update manager is read-only after
construction. Every attribute assignment and every attribute deletion
through the attribute interface fails with an error — it does not silently
leave the state unchanged while reporting success — and registering a new
record through add_to_manager appends to an existing registry without
changing the set of namespaces fixed at construction. The update operations
take the manager by value and never produce a modified mapping at all. -/
theorem C8_mapping_readonly {V : Type} :
    (∀ (cum : CUM V) (name : Str) (reg : Registry V),
      CUM.setattr cum name reg = .error ()) ∧
    (∀ (cum : CUM V) (name : Str), CUM.delattr cum name = .error ()) ∧
    (∀ (cum : CUM V) (views : List (CallRec V)) (nsname : Str) (r : CallRec V),
      namespaces (add_to_manager cum views nsname r).2.1 = namespaces cum) := by
  refine ⟨fun _ _ _ => rfl, fun _ _ => rfl, ?_⟩
  intro cum views nsname r
  unfold add_to_manager
  cases h : dlookup cum.mapping nsname with
  | none => rfl
  | some reg =>
    dsimp only
    unfold namespaces
    exact mapUpdate_keys cum.mapping nsname _

theorem redisKeys_nil_of_no_match {V : Type} (app : Str) :
    ∀ (st : DStore V), (∀ p ∈ st, matchesApp app p.1 = false) → redisKeys app st = [] := by
  intro st
  induction st with
  | nil => intro _; rfl
  | cons p st ih =>
    intro h
    obtain ⟨k, v⟩ := p
    have hk := h (k, v) (List.mem_cons_self _ _)
    simp only [redisKeys, hk, Bool.false_eq_true, if_false]
    exact ih (fun q hq => h q (List.mem_cons_of_mem _ hq))

/-- C10: with a raw redis client and a store in which no key matches the
application pattern, flush_app lists zero keys and passes the empty list to
DEL, which fails: flush_app raises instead of returning a deletion count of
zero. -/
theorem C10_flush_app_raises_on_no_match {V : Type} (app : Str) (st : DStore V)
    (h : ∀ p ∈ st, matchesApp app p.1 = false) :
    flush_app true app st = .error () := by
  unfold flush_app
  rw [if_pos rfl, redisKeys_nil_of_no_match app st h]
  rfl

theorem C10_flush_app_raises_on_no_match_witness :
    (∀ p ∈ ([(['k'], 0)] : DStore Nat), matchesApp ['a'] p.1 = false) ∧
    flush_app true ['a'] ([(['k'], 0)] : DStore Nat) = .error () :=
  ⟨by decide, C10_flush_app_raises_on_no_match ['a'] [(['k'], 0)] (by decide)⟩
